import Mathlib

/-!
Verification of the task-runner-detector core: the deduplicating task
registry, the backend search loop with its viewport scroll corrector, and
the UI response handling and line-editing functions. Each definition is a
shallow embedding of the corresponding Rust item; paths are modelled as
lists of components (`List String`), Rust `String` as Lean `String`
(codepoint-lexicographic order agrees with Rust byte-lexicographic order
on UTF-8), and `BTreeMap` as a sorted association list.
-/

set_option maxHeartbeats 1000000

/-- The runner-type enum from `lib.rs`. -/
inductive RunnerType where
  | npm | bun | yarn | pnpm | make | cargo | flutter | dart
  | turbo | poetry | pdm | just | deno
deriving DecidableEq, Repr

/-- `RunnerType::display_name` from `lib.rs`. -/
def RunnerType.display_name : RunnerType → String
  | .npm => "npm"
  | .bun => "bun"
  | .yarn => "yarn"
  | .pnpm => "pnpm"
  | .make => "make"
  | .cargo => "cargo"
  | .flutter => "flutter"
  | .dart => "dart"
  | .turbo => "turbo"
  | .poetry => "poetry"
  | .pdm => "pdm"
  | .just => "just"
  | .deno => "deno"

/-- A filesystem path, modelled as its list of components. -/
abbrev RPath := List String

/-- `config_path.parent().map(to_string_lossy).unwrap_or_default()` for a
path given by components: drop the file name and join with slashes. -/
def folderString (p : RPath) : String :=
  String.intercalate "/" p.dropLast

/-- `config_path.parent().unwrap_or(Path::new("."))` as components
(the `by_folder` key in `Registry::insert`). -/
def parentComponents (p : RPath) : RPath :=
  if p = [] then ["."] else p.dropLast

/-- The string content of `TaskKey`, given the already-derived folder
string: `folder \x00 runner_display_name \x00 task_name`
(`TaskKey::new` in `registry.rs`). -/
def taskKeyString (folder : String) (rt : RunnerType) (name : String) : String :=
  folder ++ "\x00" ++ rt.display_name ++ "\x00" ++ name

/-- `TaskKey::new(config_path, runner_type, name)` from `registry.rs`. -/
def TaskKey.new (config_path : RPath) (rt : RunnerType) (name : String) : String :=
  taskKeyString (folderString config_path) rt name

/-- The registry-side `Task` struct from `registry.rs`. -/
structure RTask where
  name : String
  runner_type : RunnerType
  config_path : RPath
deriving DecidableEq, Repr

/-- The `TaskKey` of a registry task. -/
def taskKeyOf (t : RTask) : String :=
  TaskKey.new t.config_path t.runner_type t.name

/-- Lookup in the `BTreeMap<TaskKey, TaskId>` index (key equality probe). -/
def lookupIndex : List (String × Nat) → String → Option Nat
  | [], _ => none
  | (k', v') :: rest, k => if k = k' then some v' else lookupIndex rest k

/-- `BTreeMap` insertion on the sorted association list: place the new
binding before the first strictly larger key, replacing an equal key. -/
def insertSorted : List (String × Nat) → String → Nat → List (String × Nat)
  | [], k, v => [(k, v)]
  | (k', v') :: rest, k, v =>
    if k < k' then (k, v) :: (k', v') :: rest
    else if k = k' then (k, v) :: rest
    else (k', v') :: insertSorted rest k v

/-- Membership probe for the `by_folder` map (`contains_key`). -/
def containsFolder : List (RPath × List Nat) → RPath → Bool
  | [], _ => false
  | (f, _) :: rest, k => if k = f then true else containsFolder rest k

/-- `by_folder.entry(folder).or_default().push(id)`: append `id` to the
bucket of `folder`, creating the bucket if absent. Bucket placement order
is not observed by any claim, so a plain association list stands in for
the `BTreeMap`. -/
def pushFolder : List (RPath × List Nat) → RPath → Nat → List (RPath × List Nat)
  | [], k, id => [(k, [id])]
  | (f, ids) :: rest, k, id =>
    if k = f then (f, ids ++ [id]) :: rest else (f, ids) :: pushFolder rest k id

/-- The `Registry` struct from `registry.rs`. `index` is the `BTreeMap`
as a key-sorted association list, `tasks` the append-only storage. -/
structure Registry where
  index : List (String × Nat)
  tasks : List RTask
  by_folder : List (RPath × List Nat)
  folder_order : List RPath
deriving DecidableEq, Repr

/-- `Registry::new`. -/
def Registry.new : Registry :=
  { index := [], tasks := [], by_folder := [], folder_order := [] }

/-- `Registry::insert` from `registry.rs`: dedup on `TaskKey`; on a fresh
key append to storage, record folder discovery, and index the new dense
id; on a duplicate return the existing id with no mutation. -/
def Registry.insert (r : Registry) (t : RTask) : Registry × Nat :=
  let key := taskKeyOf t
  match lookupIndex r.index key with
  | some existing => (r, existing)
  | none =>
    let id := r.tasks.length
    let folder := parentComponents t.config_path
    let folder_order :=
      if containsFolder r.by_folder folder then r.folder_order
      else r.folder_order ++ [folder]
    ({ index := insertSorted r.index key id,
       tasks := r.tasks ++ [t],
       by_folder := pushFolder r.by_folder folder id,
       folder_order := folder_order }, id)

/-- `Registry::len`. -/
def Registry.len (r : Registry) : Nat :=
  r.tasks.length

/-- `Registry::sorted_ids` (the canonical order): the values of the
key-sorted index. -/
def Registry.sorted_ids (r : Registry) : List Nat :=
  r.index.map Prod.snd

/-- Fold a sequence of `insert` calls, collecting the returned ids. -/
def Registry.insertAll (r : Registry) : List RTask → Registry × List Nat
  | [] => (r, [])
  | t :: ts =>
    let (r', id) := r.insert t
    let (r'', ids) := r'.insertAll ts
    (r'', id :: ids)

lemma lookupIndex_insertSorted_self (l : List (String × Nat)) (k : String) (v : Nat) :
    lookupIndex (insertSorted l k v) k = some v := by
  induction l with
  | nil => simp [insertSorted, lookupIndex]
  | cons p rest ih =>
    obtain ⟨k', v'⟩ := p
    by_cases h1 : k < k'
    · simp [insertSorted, lookupIndex, h1]
    · by_cases h2 : k = k'
      · simp [insertSorted, lookupIndex, h1, h2]
      · simp [insertSorted, lookupIndex, h1, h2, ih]

lemma insert_of_mem (r : Registry) (t : RTask) (id : Nat)
    (h : lookupIndex r.index (taskKeyOf t) = some id) :
    r.insert t = (r, id) := by
  simp [Registry.insert, h]

lemma insert_fresh_lookup (r : Registry) (t : RTask)
    (h : lookupIndex r.index (taskKeyOf t) = none) :
    lookupIndex (r.insert t).1.index (taskKeyOf t) = some r.tasks.length := by
  simp [Registry.insert, h, lookupIndex_insertSorted_self]

lemma insert_fresh_len (r : Registry) (t : RTask)
    (h : lookupIndex r.index (taskKeyOf t) = none) :
    (r.insert t).1.tasks.length = r.tasks.length + 1 ∧ (r.insert t).2 = r.tasks.length := by
  simp [Registry.insert, h]

lemma insertAll_dup (r : Registry) (k : String) (id : Nat) (ts : List RTask)
    (hl : lookupIndex r.index k = some id)
    (hk : ∀ t ∈ ts, taskKeyOf t = k) :
    r.insertAll ts = (r, List.replicate ts.length id) := by
  induction ts with
  | nil => simp [Registry.insertAll]
  | cons t rest ih =>
    have hkt : taskKeyOf t = k := hk t (by simp)
    have hstep : r.insert t = (r, id) := insert_of_mem r t id (hkt ▸ hl)
    have hrest := ih (fun u hu => hk u (by simp [hu]))
    simp [Registry.insertAll, hstep, hrest, List.replicate]

/-- C1. A sequence of `Registry::insert` calls whose tasks all share one
`TaskKey` (same folder, runner type and name), started on a registry not
yet holding that key, grows `len` by exactly one, returns the same dense
id from every call, and leaves the registry after the first call
untouched by the later calls. -/
theorem registry_insert_dedup_sequence (r : Registry) (k : String) (t0 : RTask)
    (ts : List RTask)
    (hfresh : lookupIndex r.index k = none)
    (hkeys : ∀ t ∈ t0 :: ts, taskKeyOf t = k) :
    (r.insertAll (t0 :: ts)).1.len = r.len + 1 ∧
    (r.insertAll (t0 :: ts)).2 = List.replicate (ts.length + 1) r.len ∧
    (r.insertAll (t0 :: ts)).1 = (r.insert t0).1 := by
  have hk0 : taskKeyOf t0 = k := hkeys t0 (by simp)
  have hfresh0 : lookupIndex r.index (taskKeyOf t0) = none := hk0 ▸ hfresh
  have hlen := insert_fresh_len r t0 hfresh0
  have hlook : lookupIndex (r.insert t0).1.index k = some r.tasks.length := by
    have := insert_fresh_lookup r t0 hfresh0
    rwa [hk0] at this
  have hrest := insertAll_dup (r.insert t0).1 k r.tasks.length ts hlook
    (fun u hu => hkeys u (by simp [hu]))
  refine ⟨?_, ?_, ?_⟩
  · simp [Registry.insertAll, Registry.len, hrest, hlen.1]
  · simp [Registry.insertAll, Registry.len, hrest, hlen.2, List.replicate]
  · simp [Registry.insertAll, hrest]

/-- Witness for C1: two inserts with the same `(folder, runner, name)`
triple but different config files in the same folder dedup to one task. -/
theorem registry_insert_dedup_sequence_witness :
    ((Registry.new.insertAll
        [⟨"build", .npm, ["p", "package.json"]⟩,
         ⟨"build", .npm, ["p", "x.json"]⟩]).1.len = Registry.new.len + 1) ∧
    ((Registry.new.insertAll
        [⟨"build", .npm, ["p", "package.json"]⟩,
         ⟨"build", .npm, ["p", "x.json"]⟩]).2 = List.replicate 2 Registry.new.len) := by
  have h := registry_insert_dedup_sequence Registry.new
    (taskKeyString "p" .npm "build")
    ⟨"build", .npm, ["p", "package.json"]⟩
    [⟨"build", .npm, ["p", "x.json"]⟩]
    (by decide)
    (by decide)
  exact ⟨h.1, h.2.1⟩

/-- Default registry task used with `List.getD`. -/
def dTask : RTask := ⟨"", RunnerType.npm, []⟩

/-- Well-formedness of a registry: the index is strictly key-sorted, has
one entry per stored task, and each entry points at a stored task whose
`TaskKey` is the entry key. Holds for every registry built by `insert`. -/
def Registry.WF (r : Registry) : Prop :=
  List.Pairwise (fun p q => p.1 < q.1) r.index ∧
  r.index.length = r.tasks.length ∧
  ∀ p ∈ r.index, p.2 < r.tasks.length ∧ taskKeyOf (r.tasks.getD p.2 dTask) = p.1

lemma lookupIndex_eq_none_iff (l : List (String × Nat)) (k : String) :
    lookupIndex l k = none ↔ ∀ p ∈ l, p.1 ≠ k := by
  induction l with
  | nil => simp [lookupIndex]
  | cons p rest ih =>
    obtain ⟨k', v'⟩ := p
    by_cases h : k = k'
    · simp [lookupIndex, h]
    · simp [lookupIndex, h, ih]
      exact fun _ => Ne.symm h

lemma mem_insertSorted (l : List (String × Nat)) (k : String) (v : Nat)
    (q : String × Nat) (hq : q ∈ insertSorted l k v) : q = (k, v) ∨ q ∈ l := by
  induction l with
  | nil => simpa [insertSorted] using hq
  | cons p rest ih =>
    obtain ⟨k', v'⟩ := p
    by_cases h1 : k < k'
    · simp [insertSorted, h1] at hq
      rcases hq with h | h | h
      · exact Or.inl (by simp [h])
      · exact Or.inr (by simp [h])
      · exact Or.inr (by simp [h])
    · by_cases h2 : k = k'
      · simp [insertSorted, h1, h2] at hq
        rcases hq with h | h
        · exact Or.inl (by simp [h, h2])
        · exact Or.inr (by simp [h])
      · simp [insertSorted, h1, h2] at hq
        rcases hq with h | h
        · exact Or.inr (by simp [h])
        · rcases ih h with h' | h'
          · exact Or.inl h'
          · exact Or.inr (by simp [h'])

lemma pairwise_insertSorted (l : List (String × Nat)) (k : String) (v : Nat)
    (hs : List.Pairwise (fun p q => p.1 < q.1) l)
    (hfresh : ∀ p ∈ l, p.1 ≠ k) :
    List.Pairwise (fun p q => p.1 < q.1) (insertSorted l k v) := by
  induction l with
  | nil => simp [insertSorted]
  | cons p rest ih =>
    obtain ⟨k', v'⟩ := p
    rw [List.pairwise_cons] at hs
    obtain ⟨hhead, hrest⟩ := hs
    by_cases h1 : k < k'
    · rw [show insertSorted ((k', v') :: rest) k v = (k, v) :: (k', v') :: rest from
        by simp [insertSorted, h1]]
      refine List.Pairwise.cons ?_ (List.Pairwise.cons hhead hrest)
      intro q hq
      rcases List.mem_cons.mp hq with h | h
      · simpa [h] using h1
      · exact lt_trans h1 (hhead q h)
    · have h2 : k ≠ k' := fun h => hfresh (k', v') (by simp) (by simp [h])
      have h3 : k' < k := by
        rcases lt_trichotomy k k' with h | h | h
        · exact absurd h h1
        · exact absurd h h2
        · exact h
      rw [show insertSorted ((k', v') :: rest) k v = (k', v') :: insertSorted rest k v from
        by simp [insertSorted, h1, h2]]
      refine List.Pairwise.cons ?_ (ih hrest (fun q hq => hfresh q (by simp [hq])))
      intro q hq
      rcases mem_insertSorted rest k v q hq with h | h
      · simpa [h] using h3
      · exact hhead q h

lemma length_insertSorted (l : List (String × Nat)) (k : String) (v : Nat)
    (hfresh : ∀ p ∈ l, p.1 ≠ k) :
    (insertSorted l k v).length = l.length + 1 := by
  induction l with
  | nil => simp [insertSorted]
  | cons p rest ih =>
    obtain ⟨k', v'⟩ := p
    by_cases h1 : k < k'
    · simp [insertSorted, h1]
    · have h2 : k ≠ k' := fun h => hfresh (k', v') (by simp) (by simp [h])
      simp [insertSorted, h1, h2, ih (fun q hq => hfresh q (by simp [hq]))]

lemma WF_new : Registry.WF Registry.new := by
  refine ⟨?_, ?_, ?_⟩ <;> simp [Registry.new]

lemma WF_insert (r : Registry) (t : RTask) (h : r.WF) : (r.insert t).1.WF := by
  obtain ⟨hsort, hlen, hmatch⟩ := h
  cases hc : lookupIndex r.index (taskKeyOf t) with
  | some id => simpa [Registry.insert, hc] using ⟨hsort, hlen, hmatch⟩
  | none =>
    have hfresh : ∀ p ∈ r.index, p.1 ≠ taskKeyOf t :=
      (lookupIndex_eq_none_iff r.index (taskKeyOf t)).mp hc
    refine ⟨?_, ?_, ?_⟩
    · simpa [Registry.insert, hc] using
        pairwise_insertSorted r.index (taskKeyOf t) r.tasks.length hsort hfresh
    · simp [Registry.insert, hc, length_insertSorted r.index _ _ hfresh, hlen]
    · intro p hp
      have hins : (r.insert t).1.tasks = r.tasks ++ [t] := by
        simp [Registry.insert, hc]
      have hidx : (r.insert t).1.index =
          insertSorted r.index (taskKeyOf t) r.tasks.length := by
        simp [Registry.insert, hc]
      rw [hidx] at hp
      rcases mem_insertSorted r.index (taskKeyOf t) r.tasks.length p hp with h | h
      · subst h
        refine ⟨?_, ?_⟩
        · rw [hins]; simp
        · rw [hins, List.getD_eq_getElem?_getD]
          simp
      · obtain ⟨hlt, hkey⟩ := hmatch p h
        refine ⟨?_, ?_⟩
        · rw [hins]
          simp only [List.length_append, List.length_singleton]
          omega
        · rw [hins, List.getD_append r.tasks [t] dTask p.2 hlt]
          exact hkey

lemma WF_insertAll (r : Registry) (ts : List RTask) (h : r.WF) :
    (r.insertAll ts).1.WF := by
  induction ts generalizing r with
  | nil => simpa [Registry.insertAll] using h
  | cons t rest ih =>
    simp only [Registry.insertAll]
    exact ih (r.insert t).1 (WF_insert r t h)

lemma lex_append_lt (p : List Char) (a b : Char) (s t : List Char) (h : a < b) :
    List.Lex (· < ·) (p ++ a :: s) (p ++ b :: t) := by
  induction p with
  | nil => exact List.Lex.rel h
  | cons c cs ih => exact List.Lex.cons ih

/-- The `\x00` separator of `TaskKey` sorts below `/`, so the key of a
task directly in folder `F` is smaller than the key of any task in a
subfolder of `F`, whatever the runner types and names are. -/
lemma key_lt_subfolder (folder sub n1 n2 : String) (r1 r2 : RunnerType) :
    taskKeyString folder r1 n1 < taskKeyString (folder ++ "/" ++ sub) r2 n2 := by
  rw [String.lt_iff_toList_lt]
  have h1 : (taskKeyString folder r1 n1).toList =
      folder.toList ++ '\x00' :: (r1.display_name.toList ++ '\x00' :: n1.toList) := by
    simp [taskKeyString, String.toList, String.data_append]
  have h2 : (taskKeyString (folder ++ "/" ++ sub) r2 n2).toList =
      folder.toList ++ '/' ::
        (sub.toList ++ '\x00' :: (r2.display_name.toList ++ '\x00' :: n2.toList)) := by
    simp [taskKeyString, String.toList, String.data_append]
  rw [h1, h2]
  exact lex_append_lt folder.toList '\x00' '/' _ _ (by decide)

lemma key_example_a_ab :
    taskKeyString "a" .npm "x" < taskKeyString "a/b" .npm "y" := by
  have h := key_lt_subfolder "a" "b" "x" "y" .npm .npm
  have he : ("a" ++ "/" ++ "b" : String) = "a/b" := rfl
  rwa [he] at h

lemma key_example_ab_b :
    taskKeyString "a/b" .npm "y" < taskKeyString "b" .npm "z" := by
  rw [String.lt_iff_toList_lt]
  have h1 : (taskKeyString "a/b" RunnerType.npm "y").toList =
      'a' :: ("/b\x00npm\x00y" : String).toList := rfl
  have h2 : (taskKeyString "b" RunnerType.npm "z").toList =
      'b' :: ("\x00npm\x00z" : String).toList := rfl
  rw [h1, h2]
  exact List.Lex.rel (by decide)

/-- C4. For any insertion sequence, `sorted_ids` lists ids whose stored
tasks have strictly increasing `TaskKey`; the `\x00` separator places a
folder before each of its subfolders; concretely the keys for folders
`"a"`, `"a/b"`, `"b"` are in strictly increasing order. -/
theorem canonical_order_sorted (ts : List RTask) :
    (List.Pairwise (fun i j =>
        taskKeyOf ((Registry.new.insertAll ts).1.tasks.getD i dTask) <
        taskKeyOf ((Registry.new.insertAll ts).1.tasks.getD j dTask))
      (Registry.new.insertAll ts).1.sorted_ids) ∧
    (∀ (folder sub n1 n2 : String) (r1 r2 : RunnerType),
        taskKeyString folder r1 n1 < taskKeyString (folder ++ "/" ++ sub) r2 n2) ∧
    (taskKeyString "a" .npm "x" < taskKeyString "a/b" .npm "y" ∧
     taskKeyString "a/b" .npm "y" < taskKeyString "b" .npm "z") := by
  refine ⟨?_, key_lt_subfolder, key_example_a_ab, key_example_ab_b⟩
  obtain ⟨hsort, _, hmatch⟩ := WF_insertAll Registry.new ts WF_new
  rw [Registry.sorted_ids, List.pairwise_map]
  refine hsort.imp_of_mem ?_
  intro p q hp hq hlt
  rw [(hmatch p hp).2, (hmatch q hq).2]
  exact hlt

/-- Folder path segments as used by `headers_for_task` in `backend.rs`:
the root folder `"."` has no segments, any other folder splits on `/`. -/
def segs (folder : String) : List String :=
  if folder = "." then [] else folder.splitOn "/"

/-- Length of the longest common segment path of two folders
(`zip`, `take_while` equal, `count` in `backend.rs`). -/
def commonLen (a b : List String) : Nat :=
  ((a.zip b).takeWhile (fun p => p.1 == p.2)).length

/-- The `headers_for_task` closure in
`Backend::calculate_scroll_for_selected`: header rows charged for the
task at position `idx` of the matched list when rendered after position
`prev` (`none` when `idx` is the top of the viewport). `folderOf i` is
the folder string of the task at matched position `i`. -/
def headersForTask (folderOf : Nat → String) (idx : Nat) (prev : Option Nat) : Nat :=
  let folder := folderOf idx
  match prev with
  | some p =>
    let prev_folder := folderOf p
    if prev_folder = folder then 0
    else
      let prev_segs := segs prev_folder
      let curr_segs := segs folder
      curr_segs.length - commonLen prev_segs curr_segs
  | none => if folder = "." then 1 else 1 + (folder.splitOn "/").length

/-- The forward rendering simulation shared by both loops of
`calculate_scroll_for_selected`: starting at row position `i` with
`lines` rows already used and previous position `prev`, walk positions
up to (but excluding) `stop`, adding header and task rows, stopping with
`false` when the viewport overflows and `true` on reaching `sel`.
`fuel` bounds the recursion and is always at least `stop - i`. -/
def walkAux (folderOf : Nat → String) (stop sel viewport : Nat) :
    Nat → Nat → Nat → Option Nat → Bool
  | 0, _, _, _ => false
  | fuel + 1, i, lines, prev =>
    if i < stop then
      let tl := headersForTask folderOf i prev + 1
      if lines + tl > viewport then false
      else if i = sel then true
      else walkAux folderOf stop sel viewport fuel (i + 1) (lines + tl) (some i)
    else false

/-- Run the forward simulation from `top`. With `stop = n` this is the
visibility check `for i in requested_offset..all_indices.len()`; with
`stop = sel + 1` it is the candidate loop body `for i in try..=sel`. -/
def walk (folderOf : Nat → String) (stop sel viewport top : Nat) : Bool :=
  walkAux folderOf stop sel viewport (stop - top) top 0 none

/-- The candidate search `for try_scroll in (requested+1)..=selected` of
`calculate_scroll_for_selected`: first candidate whose simulation shows
`sel`, else fall back to `sel`. -/
def findFitAux (folderOf : Nat → String) (sel viewport : Nat) : Nat → Nat → Nat
  | 0, _ => sel
  | fuel + 1, t =>
    if t ≤ sel then
      if walk folderOf (sel + 1) sel viewport t then t
      else findFitAux folderOf sel viewport fuel (t + 1)
    else sel

/-- `Backend::calculate_scroll_for_selected` from `backend.rs`, with the
matched list abstracted to its length `n` and the folder lookup
`folderOf` (position in the matched list to folder string of its task). -/
def calculate_scroll_for_selected (folderOf : Nat → String)
    (n requested_offset selected_index viewport_lines : Nat) : Nat :=
  if n = 0 ∨ viewport_lines = 0 then 0
  else
    let sel := min selected_index (n - 1)
    if walk folderOf n sel viewport_lines requested_offset then requested_offset
    else if sel < requested_offset then sel
    else findFitAux folderOf sel viewport_lines
      (sel + 1 - requested_offset) (requested_offset + 1)

/-- Counterexample to the literal first-item clause of the header
accounting claim: the first viewport item over the root folder `"."` is
charged one header row, not zero (the segment count of `"."`). -/
theorem headers_first_item_claim_false :
    headersForTask (fun _ => ".") 0 none ≠ (segs ".").length := by
  decide

/-- C5 (amended). Display-row accounting of the scroll corrector: a task
sharing the previous folder costs exactly 1 row; a folder transition
costs 1 task row plus one header row per segment of the new folder
beyond the longest common segment path; the first viewport item is
charged one root header row plus one header row per segment of its
folder (so `1 + segments`, and just the root row when the folder is
`"."`). -/
theorem headers_accounting (folderOf : Nat → String) (i p : Nat) :
    (folderOf p = folderOf i → headersForTask folderOf i (some p) + 1 = 1) ∧
    (folderOf p ≠ folderOf i →
      headersForTask folderOf i (some p) + 1 =
        1 + ((segs (folderOf i)).length -
             commonLen (segs (folderOf p)) (segs (folderOf i)))) ∧
    headersForTask folderOf i none = 1 + (segs (folderOf i)).length := by
  refine ⟨?_, ?_, ?_⟩
  · intro h
    simp [headersForTask, h]
  · intro h
    simp [headersForTask, h, Nat.add_comm]
  · by_cases hc : folderOf i = "."
    · simp [headersForTask, segs, hc]
    · simp [headersForTask, segs, hc]

/-- Folder layout used by the witness for the header accounting. -/
def cf5w : Nat → String :=
  fun n => if n < 2 then "a" else "a/b"

/-- Witness for C5: same folder costs 1 row, the `"a"` to `"a/b"`
transition costs 2 rows, and the first item over `"a"` is charged two
header rows. -/
theorem headers_accounting_witness :
    (headersForTask cf5w 1 (some 0) + 1 = 1) ∧
    (headersForTask cf5w 2 (some 1) + 1 =
      1 + ((segs (cf5w 2)).length - commonLen (segs (cf5w 1)) (segs (cf5w 2)))) ∧
    headersForTask cf5w 0 none = 1 + (segs (cf5w 0)).length :=
  ⟨(headers_accounting cf5w 1 0).1 (by decide),
   (headers_accounting cf5w 2 1).2.1 (by decide),
   (headers_accounting cf5w 0 0).2.2⟩

lemma walkAux_stop_congr (folderOf : Nat → String) (sel vp n : Nat) (hsel : sel < n) :
    ∀ fuel1 fuel2 i lines prev, i ≤ sel → sel + 1 - i ≤ fuel1 → sel + 1 - i ≤ fuel2 →
      walkAux folderOf n sel vp fuel1 i lines prev =
      walkAux folderOf (sel + 1) sel vp fuel2 i lines prev := by
  intro fuel1
  induction fuel1 with
  | zero =>
    intro fuel2 i lines prev hi h1 h2
    omega
  | succ f ih =>
    intro fuel2 i lines prev hi h1 h2
    cases fuel2 with
    | zero => omega
    | succ g =>
      have hin : i < n := lt_of_le_of_lt hi hsel
      have hin' : i < sel + 1 := by omega
      simp only [walkAux, if_pos hin, if_pos hin']
      by_cases hover : lines + (headersForTask folderOf i prev + 1) > vp
      · simp [hover]
      · by_cases heq : i = sel
        · simp [hover, heq]
        · have hi' : i + 1 ≤ sel := by omega
          simp only [if_neg hover, if_neg heq]
          exact ih g (i + 1) (lines + (headersForTask folderOf i prev + 1)) (some i)
            hi' (by omega) (by omega)

lemma walk_stop_congr (folderOf : Nat → String) (sel vp n top : Nat)
    (hsel : sel < n) (htop : top ≤ sel) :
    walk folderOf n sel vp top = walk folderOf (sel + 1) sel vp top := by
  unfold walk
  exact walkAux_stop_congr folderOf sel vp n hsel (n - top) (sel + 1 - top) top 0 none
    htop (by omega) (by omega)

lemma walk_self (folderOf : Nat → String) (n sel vp : Nat) (hsel : sel < n)
    (hvp : headersForTask folderOf sel none + 1 ≤ vp) :
    walk folderOf n sel vp sel = true := by
  unfold walk
  have hfuel : n - sel = (n - sel - 1) + 1 := by omega
  rw [hfuel]
  have hnot : ¬ (0 + (headersForTask folderOf sel none + 1) > vp) := by omega
  simp only [walkAux, if_pos hsel]
  rw [if_neg hnot]
  simp

lemma findFitAux_spec (folderOf : Nat → String) (sel vp : Nat) :
    ∀ fuel t, sel + 1 - t ≤ fuel →
      ((t ≤ findFitAux folderOf sel vp fuel t ∧
        findFitAux folderOf sel vp fuel t ≤ sel ∧
        walk folderOf (sel + 1) sel vp (findFitAux folderOf sel vp fuel t) = true ∧
        ∀ c, t ≤ c → c < findFitAux folderOf sel vp fuel t →
          walk folderOf (sel + 1) sel vp c = false) ∨
       (findFitAux folderOf sel vp fuel t = sel ∧
        ∀ c, t ≤ c → c ≤ sel → walk folderOf (sel + 1) sel vp c = false)) := by
  intro fuel
  induction fuel with
  | zero =>
    intro t ht
    right
    refine ⟨rfl, ?_⟩
    intro c hc1 hc2
    omega
  | succ f ih =>
    intro t ht
    by_cases hts : t ≤ sel
    · cases hw : walk folderOf (sel + 1) sel vp t with
      | true =>
        have hr : findFitAux folderOf sel vp (f + 1) t = t := by
          simp [findFitAux, hts, hw]
        left
        rw [hr]
        exact ⟨le_refl t, hts, hw, fun c hc1 hc2 => by omega⟩
      | false =>
        have hrw : findFitAux folderOf sel vp (f + 1) t = findFitAux folderOf sel vp f (t + 1) := by
          simp [findFitAux, hts, hw]
        rcases ih (t + 1) (by omega) with ⟨h1, h2, h3, h4⟩ | ⟨h1, h2⟩
        · left
          rw [hrw]
          refine ⟨by omega, h2, h3, ?_⟩
          intro c hc1 hc2
          by_cases hct : c = t
          · subst hct; exact hw
          · exact h4 c (by omega) hc2
        · right
          rw [hrw]
          refine ⟨h1, ?_⟩
          intro c hc1 hc2
          by_cases hct : c = t
          · subst hct; exact hw
          · exact h2 c (by omega) hc2
    · right
      have hr : findFitAux folderOf sel vp (f + 1) t = sel := by
        simp [findFitAux, hts]
      exact ⟨hr, fun c hc1 hc2 => by omega⟩

/-- C6. Case analysis of the corrected offset: when the forward
simulation from `requested` already shows the clamped selection, the
offset is returned unchanged; when it does not and the clamped selection
lies above the window, the corrected offset is the clamped selection;
otherwise the corrected offset is the smallest candidate in
`requested + 1 ..= sel` whose simulation fits the selection, falling
back to `sel` when no candidate fits. -/
theorem scroll_correction_cases (folderOf : Nat → String)
    (n requested selected vp : Nat) (hn : n ≠ 0) (hvp : vp ≠ 0) :
    (walk folderOf n (min selected (n - 1)) vp requested = true →
      calculate_scroll_for_selected folderOf n requested selected vp = requested) ∧
    (walk folderOf n (min selected (n - 1)) vp requested = false →
      min selected (n - 1) < requested →
      calculate_scroll_for_selected folderOf n requested selected vp =
        min selected (n - 1)) ∧
    (walk folderOf n (min selected (n - 1)) vp requested = false →
      requested ≤ min selected (n - 1) →
      ((requested + 1 ≤ calculate_scroll_for_selected folderOf n requested selected vp ∧
        calculate_scroll_for_selected folderOf n requested selected vp ≤
          min selected (n - 1) ∧
        walk folderOf (min selected (n - 1) + 1) (min selected (n - 1)) vp
          (calculate_scroll_for_selected folderOf n requested selected vp) = true ∧
        ∀ c, requested + 1 ≤ c →
          c < calculate_scroll_for_selected folderOf n requested selected vp →
          walk folderOf (min selected (n - 1) + 1) (min selected (n - 1)) vp c = false) ∨
       (calculate_scroll_for_selected folderOf n requested selected vp =
          min selected (n - 1) ∧
        ∀ c, requested + 1 ≤ c → c ≤ min selected (n - 1) →
          walk folderOf (min selected (n - 1) + 1) (min selected (n - 1)) vp c =
            false))) := by
  have hcond : ¬ (n = 0 ∨ vp = 0) := by omega
  refine ⟨?_, ?_, ?_⟩
  · intro hw
    simp [calculate_scroll_for_selected, hcond, hw]
  · intro hw hlt
    simp [calculate_scroll_for_selected, hcond, hw, hlt]
  · intro hw hge
    have hnlt : ¬ (min selected (n - 1) < requested) := by omega
    have hval : calculate_scroll_for_selected folderOf n requested selected vp =
        findFitAux folderOf (min selected (n - 1)) vp
          (min selected (n - 1) + 1 - requested) (requested + 1) := by
      simp [calculate_scroll_for_selected, hcond, hw, hnlt]
    rw [hval]
    exact findFitAux_spec folderOf (min selected (n - 1)) vp
      (min selected (n - 1) + 1 - requested) (requested + 1) (by omega)

/-- Witness for C6: with five viewport lines and two root tasks both
fitting, the requested offset 0 is returned unchanged. -/
theorem scroll_correction_cases_witness :
    calculate_scroll_for_selected (fun _ => ".") 2 0 1 5 = 0 :=
  (scroll_correction_cases (fun _ => ".") 2 0 1 5 (by decide) (by decide)).1 (by decide)

/-- Counterexample to the unconditional scroll visibility claim: one
matched root task with a one-line viewport; the corrected offset is 0
but the simulation from 0 cannot show the selection, because its own
header row plus task row already exceed the viewport. -/
theorem scroll_visibility_claim_false :
    (1 : Nat) ≠ 0 ∧
    walk (fun _ => ".") 1 (min 0 (1 - 1)) 1
      (calculate_scroll_for_selected (fun _ => ".") 1 0 0 1) = false := by
  exact ⟨by decide, by decide⟩

/-- C2 (amended). For a non-empty match set, the corrected offset makes
the clamped selection visible within `viewport_lines`, provided the
viewport can hold the clamped selection rendered as the top item (its
full header stack plus its task row). -/
theorem scroll_visibility (folderOf : Nat → String)
    (n requested selected vp : Nat) (hn : n ≠ 0)
    (hvp : headersForTask folderOf (min selected (n - 1)) none + 1 ≤ vp) :
    walk folderOf n (min selected (n - 1)) vp
      (calculate_scroll_for_selected folderOf n requested selected vp) = true := by
  have hsel : min selected (n - 1) < n := by omega
  have hvpne : vp ≠ 0 := by
    have := headersForTask folderOf (min selected (n - 1)) none
    omega
  have hcases := scroll_correction_cases folderOf n requested selected vp hn hvpne
  cases hw : walk folderOf n (min selected (n - 1)) vp requested with
  | true =>
    rw [hcases.1 hw]
    exact hw
  | false =>
    by_cases hlt : min selected (n - 1) < requested
    · rw [hcases.2.1 hw hlt]
      exact walk_self folderOf n (min selected (n - 1)) vp hsel hvp
    · have hge : requested ≤ min selected (n - 1) := by omega
      rcases hcases.2.2 hw hge with ⟨_, h2, h3, _⟩ | ⟨h1, _⟩
      · rw [walk_stop_congr folderOf (min selected (n - 1)) vp n
          (calculate_scroll_for_selected folderOf n requested selected vp) hsel h2]
        exact h3
      · rw [h1]
        exact walk_self folderOf n (min selected (n - 1)) vp hsel hvp

/-- Witness for C2: one root task and a two-line viewport; the corrected
offset shows the selection. -/
theorem scroll_visibility_witness :
    walk (fun _ => ".") 1 (min 0 (1 - 1)) 2
      (calculate_scroll_for_selected (fun _ => ".") 1 0 0 2) = true :=
  scroll_visibility (fun _ => ".") 1 0 0 2 (by decide) (by decide)

/-- The `TaskItem` record as constructed in `Backend::add_runner`. -/
structure TaskItem where
  folder : String
  command : String
  script : Option String
  runner_type : RunnerType
  config_path : RPath
deriving DecidableEq, Repr

instance : Inhabited TaskItem :=
  ⟨⟨"", "", none, RunnerType.npm, []⟩⟩

/-- The crate-level `Task` struct from `lib.rs`. -/
structure CrateTask where
  name : String
  command : String
  description : Option String
  script : Option String
deriving DecidableEq, Repr

/-- The `TaskRunner` struct from `lib.rs`. -/
structure TaskRunner where
  config_path : RPath
  runner_type : RunnerType
  tasks : List CrateTask
deriving DecidableEq, Repr

/-- `Task::folder_display` from `registry.rs`: strip the root, print
`"."` when the remaining path has no separator, else print the parent. -/
def folder_display (root cfg : RPath) : String :=
  let rel := if root.isPrefixOf cfg then cfg.drop root.length else cfg
  let s := String.intercalate "/" rel
  if !(s.contains '/') && !(s.contains '\\') then "."
  else if rel = [] then "." else String.intercalate "/" rel.dropLast

/-- `SearchRequest` from `messages.rs`. -/
structure SearchRequest where
  query : String
  offset : Nat
  limit : Nat
  viewport_lines : Nat
  selected_index : Nat
deriving DecidableEq, Repr

/-- `SearchResponse` from `messages.rs`. -/
structure SearchResponse where
  matched_indices : List Nat
  offset : Nat
  total_tasks : Nat
  matched_tasks : Nat
  scanning_done : Bool
deriving DecidableEq, Repr

/-- The `Backend` state from `backend.rs`: the registry, the shared task
list, the injected fuzzy-engine candidates `(index, haystack)`, the root
path, the currently parsed query and the scan-completion flag. The
engine internals are abstracted; searches consult an oracle. -/
structure BState where
  registry : Registry
  shared : List TaskItem
  engine : List (Nat × String)
  root : RPath
  currentQuery : String
  scanningDone : Bool
deriving Repr

/-- `Backend::new` with the initially empty shared task list. -/
def initState (root : RPath) : BState :=
  ⟨Registry.new, [], [], root, "", false⟩

/-- The per-task body of `Backend::add_runner`: insert into the registry
and, only when the registry grew, append the display item to the shared
list and push the candidate `"{folder} {command}"` into the engine under
the next dense index. -/
def addTask (st : BState) (rt : RunnerType) (cfg : RPath) (task : CrateTask) : BState :=
  let registry_task : RTask := ⟨task.name, rt, cfg⟩
  let len_before := st.registry.len
  let reg' := (st.registry.insert registry_task).1
  if reg'.len > len_before then
    let folder := folder_display st.root cfg
    let item : TaskItem := ⟨folder, task.command, task.script, rt, cfg⟩
    { st with registry := reg',
              shared := st.shared ++ [item],
              engine := st.engine ++ [(st.shared.length, folder ++ " " ++ task.command)] }
  else
    { st with registry := reg' }

/-- `Backend::add_runner` from `backend.rs`. -/
def add_runner (st : BState) (runner : TaskRunner) : BState :=
  runner.tasks.foldl
    (fun s task => addTask s runner.runner_type runner.config_path task) st

/-- `Backend::handle_search` from `backend.rs`. `engineFor` is the
oracle for the fuzzy-engine snapshot (matched indices by descending
score) for a given non-empty query; an empty query bypasses the engine
and substitutes the canonical registry order. -/
def handle_search (engineFor : String → List Nat) (st : BState) (req : SearchRequest) :
    BState × SearchResponse :=
  let st' := { st with currentQuery := req.query }
  let matched : List Nat :=
    if req.query = "" then st.registry.sorted_ids else engineFor req.query
  let folderOf : Nat → String := fun i => (st.shared.getD (matched.getD i 0) default).folder
  let corrected := calculate_scroll_for_selected folderOf matched.length
    req.offset req.selected_index req.viewport_lines
  let m := matched.length
  let s := min corrected m
  let e := min (corrected + req.limit) m
  (st', { matched_indices := (matched.drop s).take (e - s),
          offset := corrected,
          total_tasks := st.shared.length,
          matched_tasks := m,
          scanning_done := st.scanningDone })

/-- C3. An empty-query search against a registry built by insertions
bypasses the engine (any two oracles give the same result), reports
`matched_tasks = Registry.len()`, and returns the canonical
`sorted_ids` order sliced from the corrected offset up to `limit`. -/
theorem empty_query_canonical (st : BState) (ts : List RTask)
    (req : SearchRequest) (engine1 engine2 : String → List Nat)
    (hreach : st.registry = (Registry.new.insertAll ts).1)
    (hq : req.query = "") :
    handle_search engine1 st req = handle_search engine2 st req ∧
    (handle_search engine1 st req).2.matched_tasks = st.registry.len ∧
    (handle_search engine1 st req).2.matched_indices =
      (st.registry.sorted_ids.drop
          (min (handle_search engine1 st req).2.offset st.registry.len)).take
        (min ((handle_search engine1 st req).2.offset + req.limit) st.registry.len -
          min (handle_search engine1 st req).2.offset st.registry.len) := by
  have hwf := WF_insertAll Registry.new ts WF_new
  rw [← hreach] at hwf
  have hlen : st.registry.sorted_ids.length = st.registry.len := by
    rw [Registry.sorted_ids, List.length_map]
    exact hwf.2.1
  refine ⟨?_, ?_, ?_⟩
  · simp [handle_search, hq]
  · simp [handle_search, hq, hlen]
  · simp only [handle_search, hq, if_pos]
    simp [hlen]

/-- Concrete registry content for the empty-query witness. -/
def c3ts : List RTask :=
  [⟨"build", .npm, ["a", "package.json"]⟩]

/-- Concrete backend state for the empty-query witness. -/
def c3st : BState :=
  ⟨(Registry.new.insertAll c3ts).1,
   [⟨"a", "npm run build", none, .npm, ["a", "package.json"]⟩],
   [], [], "", true⟩

/-- Witness for C3: a fully scanned one-task registry answers the empty
query with `matched_tasks` equal to the registry length. -/
theorem empty_query_canonical_witness :
    (handle_search (fun _ => []) c3st ⟨"", 0, 10, 5, 0⟩).2.matched_tasks =
      c3st.registry.len :=
  (empty_query_canonical c3st c3ts ⟨"", 0, 10, 5, 0⟩ (fun _ => [])
    (fun _ => [42]) rfl rfl).2.1

/-- Alignment invariant of `Backend::add_runner`: the shared list is as
long as the registry, and the engine holds the candidate indices
`0, 1, …` in order, one per shared entry. -/
def BInv (st : BState) : Prop :=
  st.shared.length = st.registry.len ∧
  st.engine.map Prod.fst = List.range st.shared.length

lemma addTask_dup (st : BState) (rt : RunnerType) (cfg : RPath) (task : CrateTask)
    (h : lookupIndex st.registry.index (taskKeyOf ⟨task.name, rt, cfg⟩) ≠ none) :
    addTask st rt cfg task = st := by
  cases hl : lookupIndex st.registry.index (taskKeyOf ⟨task.name, rt, cfg⟩) with
  | none => exact absurd hl h
  | some id =>
    have hins : st.registry.insert ⟨task.name, rt, cfg⟩ = (st.registry, id) :=
      insert_of_mem _ _ _ hl
    simp [addTask, hins]

lemma addTask_fresh (st : BState) (rt : RunnerType) (cfg : RPath) (task : CrateTask)
    (h : lookupIndex st.registry.index (taskKeyOf ⟨task.name, rt, cfg⟩) = none) :
    addTask st rt cfg task =
      { st with
          registry := (st.registry.insert ⟨task.name, rt, cfg⟩).1,
          shared := st.shared ++
            [⟨folder_display st.root cfg, task.command, task.script, rt, cfg⟩],
          engine := st.engine ++
            [(st.shared.length,
              folder_display st.root cfg ++ " " ++ task.command)] } := by
  have hlen := (insert_fresh_len st.registry ⟨task.name, rt, cfg⟩ h).1
  have hgt : (st.registry.insert ⟨task.name, rt, cfg⟩).1.len > st.registry.len := by
    simp only [Registry.len]
    omega
  simp [addTask, hgt]

lemma addTask_inv (st : BState) (rt : RunnerType) (cfg : RPath) (task : CrateTask)
    (h : BInv st) : BInv (addTask st rt cfg task) := by
  obtain ⟨h1, h2⟩ := h
  by_cases hl : lookupIndex st.registry.index (taskKeyOf ⟨task.name, rt, cfg⟩) = none
  · rw [addTask_fresh st rt cfg task hl]
    have hlen := (insert_fresh_len st.registry ⟨task.name, rt, cfg⟩ hl).1
    constructor
    · simp only [Registry.len] at h1 ⊢
      simp only [List.length_append, List.length_singleton]
      omega
    · simp only [List.map_append, List.map_cons, List.map_nil, h2,
        List.length_append, List.length_singleton]
      exact (List.range_succ st.shared.length).symm
  · rw [addTask_dup st rt cfg task hl]
    exact ⟨h1, h2⟩

lemma foldl_addTask_inv (rt : RunnerType) (cfg : RPath) (tasks : List CrateTask) :
    ∀ st : BState, BInv st →
      BInv (tasks.foldl (fun s task => addTask s rt cfg task) st) := by
  induction tasks with
  | nil => intro st h; simpa using h
  | cons t rest ih =>
    intro st h
    simp only [List.foldl_cons]
    exact ih (addTask st rt cfg t) (addTask_inv st rt cfg t h)

lemma add_runner_inv (st : BState) (runner : TaskRunner) (h : BInv st) :
    BInv (add_runner st runner) :=
  foldl_addTask_inv runner.runner_type runner.config_path runner.tasks st h

lemma foldl_add_runner_inv (runners : List TaskRunner) :
    ∀ st : BState, BInv st → BInv (runners.foldl add_runner st) := by
  induction runners with
  | nil => intro st h; simpa using h
  | cons r rest ih =>
    intro st h
    simp only [List.foldl_cons]
    exact ih (add_runner st r) (add_runner_inv st r h)

lemma initState_inv (root : RPath) : BInv (initState root) := by
  constructor <;> simp [initState, Registry.new, Registry.len]

/-- C9. After any sequence of `add_runner` deliveries the shared list is
exactly as long as the registry and the engine holds one candidate per
shared entry, indexed densely in order; delivering a task whose
`TaskKey` is already present changes nothing, while a fresh task gets
the dense id equal to the shared-list position at which its item is
appended. -/
theorem add_runner_alignment (root : RPath) (runners : List TaskRunner) :
    (List.foldl add_runner (initState root) runners).shared.length =
      (List.foldl add_runner (initState root) runners).registry.len ∧
    (List.foldl add_runner (initState root) runners).engine.map Prod.fst =
      List.range (List.foldl add_runner (initState root) runners).shared.length ∧
    (∀ (rt : RunnerType) (cfg : RPath) (task : CrateTask),
      lookupIndex (List.foldl add_runner (initState root) runners).registry.index
          (taskKeyOf ⟨task.name, rt, cfg⟩) ≠ none →
      addTask (List.foldl add_runner (initState root) runners) rt cfg task =
        List.foldl add_runner (initState root) runners) ∧
    (∀ (rt : RunnerType) (cfg : RPath) (task : CrateTask),
      lookupIndex (List.foldl add_runner (initState root) runners).registry.index
          (taskKeyOf ⟨task.name, rt, cfg⟩) = none →
      ((List.foldl add_runner (initState root) runners).registry.insert
          ⟨task.name, rt, cfg⟩).2 =
        (List.foldl add_runner (initState root) runners).shared.length ∧
      (addTask (List.foldl add_runner (initState root) runners) rt cfg task).shared =
        (List.foldl add_runner (initState root) runners).shared ++
          [⟨folder_display (List.foldl add_runner (initState root) runners).root cfg,
            task.command, task.script, rt, cfg⟩]) := by
  have hinv := foldl_add_runner_inv runners (initState root) (initState_inv root)
  obtain ⟨h1, h2⟩ := hinv
  refine ⟨h1, h2, ?_, ?_⟩
  · intro rt cfg task hl
    exact addTask_dup _ rt cfg task hl
  · intro rt cfg task hl
    constructor
    · rw [(insert_fresh_len _ ⟨task.name, rt, cfg⟩ hl).2]
      simp only [Registry.len] at h1
      omega
    · rw [addTask_fresh _ rt cfg task hl]

/-- Runner delivery used by the C9 witness. -/
def c9runner : TaskRunner :=
  ⟨["r", "package.json"], .npm, [⟨"build", "npm run build", none, none⟩]⟩

/-- Witness for C9: after the same runner is delivered twice, delivering
its task once more leaves the backend state unchanged. -/
theorem add_runner_alignment_witness :
    addTask (List.foldl add_runner (initState ["r"]) [c9runner, c9runner]) .npm
        ["r", "package.json"] ⟨"build", "npm run build", none, none⟩ =
      List.foldl add_runner (initState ["r"]) [c9runner, c9runner] :=
  (add_runner_alignment ["r"] [c9runner, c9runner]).2.2.1 .npm ["r", "package.json"]
    ⟨"build", "npm run build", none, none⟩ (by decide)

/-- Step 1 of `Backend::run`: drain the request channel, keeping only
the most recently received request (`pending_request` is overwritten on
every successful `try_recv`). -/
def drainRequests (reqs : List SearchRequest) : Option SearchRequest :=
  reqs.foldl (fun _ r => some r) none

lemma foldl_overwrite (l : List SearchRequest) :
    ∀ acc : Option SearchRequest,
      l.foldl (fun _ r => some r) acc = if l = [] then acc else l.getLast? := by
  induction l with
  | nil => intro acc; simp
  | cons x xs ih =>
    intro acc
    simp only [List.foldl_cons, ih (some x)]
    cases xs with
    | nil => simp
    | cons y ys => simp [List.getLast?_cons_cons]

lemma drainRequests_eq_getLast (reqs : List SearchRequest) :
    drainRequests reqs = reqs.getLast? := by
  rw [drainRequests, foldl_overwrite reqs none]
  cases reqs with
  | nil => simp
  | cons x xs => simp

/-- Step 2 of `Backend::run`: drain the scanner channel, ingesting every
buffered runner, and set `scanning_done` when the channel is observed
closed. -/
def ingestRunners (st : BState) (runners : List TaskRunner) (scannerClosed : Bool) :
    BState :=
  let st1 := runners.foldl add_runner st
  if scannerClosed then { st1 with scanningDone := true } else st1

/-- One iteration of the `Backend::run` loop over the requests and
runners buffered at its start: drain requests keeping the last, ingest
all runners, then answer the kept request (if any). Returns the new
state and the list of responses sent this iteration. -/
def backendIter (engineFor : String → List Nat) (st : BState)
    (reqs : List SearchRequest) (runners : List TaskRunner)
    (scannerClosed : Bool) : BState × List SearchResponse :=
  match drainRequests reqs with
  | some r =>
    ((handle_search engineFor (ingestRunners st runners scannerClosed) r).1,
     [(handle_search engineFor (ingestRunners st runners scannerClosed) r).2])
  | none => (ingestRunners st runners scannerClosed, [])

/-- C8. Each backend iteration sends at most one response; with no
buffered request none is sent; with a non-empty buffered sequence the
sole response answers the last request of the sequence, evaluated
against the post-ingest state, and the earlier requests are never
answered. -/
theorem backend_coalesces_requests (engineFor : String → List Nat) (st : BState)
    (reqs : List SearchRequest) (runners : List TaskRunner) (closed : Bool) :
    (backendIter engineFor st reqs runners closed).2.length ≤ 1 ∧
    (reqs = [] → (backendIter engineFor st reqs runners closed).2 = []) ∧
    (∀ r, reqs.getLast? = some r →
      (backendIter engineFor st reqs runners closed).2 =
        [(handle_search engineFor (ingestRunners st runners closed) r).2]) := by
  refine ⟨?_, ?_, ?_⟩
  · rw [backendIter]
    cases h : drainRequests reqs <;> simp
  · intro h
    subst h
    rw [backendIter]
    simp [drainRequests]
  · intro r hr
    rw [backendIter, drainRequests_eq_getLast, hr]

/-- Requests used by the C8 witness. -/
def c8req1 : SearchRequest := ⟨"stale", 0, 10, 5, 0⟩

/-- Second request used by the C8 witness. -/
def c8req2 : SearchRequest := ⟨"", 0, 10, 5, 0⟩

/-- Witness for C8: of two buffered requests only the later one is
answered. -/
theorem backend_coalesces_requests_witness :
    (backendIter (fun _ => []) (initState []) [c8req1, c8req2] [] true).2 =
      [(handle_search (fun _ => []) (ingestRunners (initState []) [] true) c8req2).2] :=
  (backend_coalesces_requests (fun _ => []) (initState []) [c8req1, c8req2] []
    true).2.2 c8req2 rfl

/-- The UI-state fields touched when a `SearchResponse` arrives in
`run_ui_loop` (`ui.rs`). -/
structure UIRecvState where
  selected_index : Nat
  scroll_offset : Nat
  needs_search : Bool
deriving DecidableEq, Repr

/-- `derive_scroll` from `ui.rs`: keep the selection inside a window of
`viewport_size` tasks starting at the scroll offset. -/
def derive_scroll (selected_index current_scroll viewport_size : Nat) : Nat :=
  if selected_index < current_scroll then selected_index
  else if selected_index ≥ current_scroll + viewport_size then
    selected_index - viewport_size + 1
  else current_scroll

/-- The `Ok(response)` branch of the `try_recv` match in `run_ui_loop`:
clamp the selection to the matched count, then recompute the scroll
offset with `derive_scroll` from the current offset and the task count
of the last render; request another search while scanning continues. -/
def on_response (st : UIRecvState) (resp : SearchResponse) (tasks_visible : Nat) :
    UIRecvState :=
  let sel :=
    if resp.matched_tasks > 0 then min st.selected_index (resp.matched_tasks - 1)
    else 0
  { selected_index := sel,
    scroll_offset := derive_scroll sel st.scroll_offset tasks_visible,
    needs_search := if !resp.scanning_done then true else st.needs_search }

lemma derive_scroll_window (sel scroll vis : Nat) (hvis : 0 < vis) :
    derive_scroll sel scroll vis ≤ sel ∧ sel < derive_scroll sel scroll vis + vis := by
  unfold derive_scroll
  by_cases h1 : sel < scroll
  · simp only [if_pos h1]
    omega
  · by_cases h2 : sel ≥ scroll + vis
    · simp only [if_neg h1, if_pos h2]
      omega
    · simp only [if_neg h1, if_neg h2]
      omega

/-- Counterexample to the claim that the UI adopts the backend-corrected
offset verbatim: a response carrying offset 5 leaves the UI scroll
offset at 0, because `run_ui_loop` recomputes it with `derive_scroll`
and never reads `response.offset`. -/
theorem ui_adopts_offset_claim_false :
    (on_response ⟨0, 0, false⟩ ⟨[], 5, 10, 10, true⟩ 10).scroll_offset ≠
      (⟨[], 5, 10, 10, true⟩ : SearchResponse).offset := by
  decide

/-- C7 (amended). On receiving a response the UI clamps the selection to
`[0, matched_tasks - 1]` (0 when empty) as claimed, but it sets the
scroll offset to `derive_scroll` of the clamped selection, the current
scroll offset and the last-render visible task count — ignoring the
offset carried in the response — which keeps the clamped selection
inside the window of `tasks_visible` tasks starting at the new offset. -/
theorem ui_response_update (st : UIRecvState) (resp : SearchResponse)
    (vis : Nat) (hvis : 0 < vis) :
    (resp.matched_tasks > 0 →
      (on_response st resp vis).selected_index =
        min st.selected_index (resp.matched_tasks - 1)) ∧
    (resp.matched_tasks = 0 → (on_response st resp vis).selected_index = 0) ∧
    (on_response st resp vis).scroll_offset =
      derive_scroll (on_response st resp vis).selected_index st.scroll_offset vis ∧
    (on_response st resp vis).scroll_offset ≤
      (on_response st resp vis).selected_index ∧
    (on_response st resp vis).selected_index <
      (on_response st resp vis).scroll_offset + vis := by
  refine ⟨?_, ?_, ?_, ?_, ?_⟩
  · intro h
    simp [on_response, h]
  · intro h
    simp [on_response, h]
  · rfl
  · exact (derive_scroll_window _ st.scroll_offset vis hvis).1
  · exact (derive_scroll_window _ st.scroll_offset vis hvis).2

/-- Witness for C7: a selection of 7 against 3 matched tasks is clamped
to 2 and the new scroll offset keeps it in a 2-task window. -/
theorem ui_response_update_witness :
    ((on_response ⟨7, 0, false⟩ ⟨[], 0, 3, 3, true⟩ 2).selected_index =
        min 7 (3 - 1)) ∧
    (on_response ⟨7, 0, false⟩ ⟨[], 0, 3, 3, true⟩ 2).scroll_offset ≤
      (on_response ⟨7, 0, false⟩ ⟨[], 0, 3, 3, true⟩ 2).selected_index :=
  ⟨(ui_response_update ⟨7, 0, false⟩ ⟨[], 0, 3, 3, true⟩ 2 (by decide)).1 (by decide),
   (ui_response_update ⟨7, 0, false⟩ ⟨[], 0, 3, 3, true⟩ 2 (by decide)).2.2.2.1⟩

/-- Key codes relevant to `apply_input_event` (`crossterm::KeyCode`). -/
inductive KeyCode where
  | char (c : Char)
  | left
  | right
  | home
  | endKey
  | backspace
  | delete
  | other
deriving DecidableEq, Repr

/-- A key press with its modifier flags. -/
structure KeyEvent where
  code : KeyCode
  ctrl : Bool
  alt : Bool
deriving DecidableEq, Repr

/-- The Rust `char::is_whitespace` predicate: the Unicode
`White_Space` property. -/
def rustIsWhitespace (c : Char) : Bool :=
  let n := c.toNat
  (0x9 ≤ n && n ≤ 0xD) || n == 0x20 || n == 0x85 || n == 0xA0 || n == 0x1680 ||
  (0x2000 ≤ n && n ≤ 0x200A) || n == 0x2028 || n == 0x2029 || n == 0x202F ||
  n == 0x205F || n == 0x3000

/-- Rust `str::len`: the UTF-8 byte length of the buffer. -/
def byteLen (l : List Char) : Nat :=
  (l.map Char.utf8Size).sum

/-- Rust `str::trim_end`: drop trailing whitespace characters. -/
def rustTrimEnd (l : List Char) : List Char :=
  (l.reverse.dropWhile rustIsWhitespace).reverse

/-- Accumulator for `rfind(char::is_whitespace)`: walk the characters
tracking the byte offset, remembering the offset of the last whitespace
character seen. -/
def rfindWsByteAux : List Char → Nat → Option Nat → Option Nat
  | [], _, acc => acc
  | c :: cs, off, acc =>
    rfindWsByteAux cs (off + c.utf8Size) (if rustIsWhitespace c then some off else acc)

/-- Rust `str::rfind(char::is_whitespace)`: byte offset of the start of
the last whitespace character, if any. -/
def rfindWsByte (l : List Char) : Option Nat :=
  rfindWsByteAux l 0 none

/-- Rust byte slicing `&s[..n]`: the characters making up the first `n`
bytes, or `none` (a panic) when `n` is not a character boundary or is
out of range. -/
def byteTake : List Char → Nat → Option (List Char)
  | _, 0 => some []
  | [], _ + 1 => none
  | c :: cs, n + 1 =>
    if c.utf8Size ≤ n + 1 then (byteTake cs (n + 1 - c.utf8Size)).map (c :: ·)
    else none

/-- The Ctrl+W branch of `apply_input_event`: take the prefix before
the cursor, trim trailing whitespace, find the last whitespace byte
offset, byte-slice the trimmed prefix there and glue the suffix back.
`none` models the byte-slice panic at a non-boundary offset. -/
def ctrlWEdit (buffer : List Char) (cursor : Nat) : Option (List Char × Nat) :=
  if cursor ≤ buffer.length then
    let before := buffer.take cursor
    let trimmed := rustTrimEnd before
    let new_pos :=
      match rfindWsByte trimmed with
      | some i => i + 1
      | none => 0
    match byteTake trimmed new_pos with
    | some kept => some (kept ++ buffer.drop cursor, new_pos)
    | none => none
  else none

/-- The first loop of word-left: step back over whitespace. -/
def skipWsBack (chars : List Char) : Nat → Nat
  | 0 => 0
  | p + 1 => if rustIsWhitespace (chars.getD p ' ') then skipWsBack chars p else p + 1

/-- The second loop of word-left: step back over non-whitespace. -/
def skipWordBack (chars : List Char) : Nat → Nat
  | 0 => 0
  | p + 1 => if rustIsWhitespace (chars.getD p ' ') then p + 1 else skipWordBack chars p

/-- Word-wise cursor-left target position. -/
def wordLeftPos (chars : List Char) (start : Nat) : Nat :=
  skipWordBack chars (skipWsBack chars start)

/-- The first loop of word-right: step forward over non-whitespace. -/
def skipWordFwd (chars : List Char) : Nat → Nat → Nat
  | 0, p => p
  | f + 1, p =>
    if p < chars.length then
      if rustIsWhitespace (chars.getD p ' ') then p else skipWordFwd chars f (p + 1)
    else p

/-- The second loop of word-right: step forward over whitespace. -/
def skipWsFwd (chars : List Char) : Nat → Nat → Nat
  | 0, p => p
  | f + 1, p =>
    if p < chars.length then
      if rustIsWhitespace (chars.getD p ' ') then skipWsFwd chars f (p + 1) else p
    else p

/-- Word-wise cursor-right target position. -/
def wordRightPos (chars : List Char) (start : Nat) : Nat :=
  skipWsFwd chars chars.length (skipWordFwd chars chars.length start)

/-- `apply_input_event` from `ui.rs`, on the character list of the
buffer. `none` models a panic: a `Vec` index or insert/remove out of
bounds, or a string slice at a non-character boundary. The cursor
positions all count characters except in the Ctrl+E and Ctrl+W arms,
which follow the source in using byte counts. -/
def apply_input_event (buffer : List Char) (cursor : Nat) (key : KeyEvent) :
    Option (List Char × Nat) :=
  let word_mod := key.alt || key.ctrl
  match key.code with
  | KeyCode.char c =>
    if key.ctrl && (c == 'a') then some (buffer, 0)
    else if key.ctrl && (c == 'e') then some (buffer, byteLen buffer)
    else if key.ctrl && (c == 'u') then
      if cursor ≤ buffer.length then some (buffer.drop cursor, 0) else none
    else if key.ctrl && (c == 'k') then
      if cursor ≤ buffer.length then some (buffer.take cursor, cursor) else none
    else if key.ctrl && (c == 'w') then ctrlWEdit buffer cursor
    else
      if cursor ≤ buffer.length then some (buffer.insertIdx cursor c, cursor + 1)
      else none
  | KeyCode.left =>
    if word_mod then
      if buffer.length < cursor then none
      else some (buffer, wordLeftPos buffer cursor)
    else some (buffer, cursor - 1)
  | KeyCode.right =>
    if word_mod then some (buffer, wordRightPos buffer cursor)
    else some (buffer, min (cursor + 1) buffer.length)
  | KeyCode.home => some (buffer, 0)
  | KeyCode.endKey => some (buffer, buffer.length)
  | KeyCode.backspace =>
    if cursor > 0 then
      if cursor - 1 < buffer.length then some (buffer.eraseIdx (cursor - 1), cursor - 1)
      else none
    else some (buffer, cursor)
  | KeyCode.delete =>
    if cursor < buffer.length then some (buffer.eraseIdx cursor, cursor)
    else some (buffer, cursor)
  | KeyCode.other => some (buffer, cursor)

/-- Counterexample to the totality claim: Ctrl+W on the buffer
`a U+00A0 b` with the cursor at its character count panics, because the
last whitespace character is two bytes wide and the byte slice
`..offset+1` falls inside it. -/
theorem apply_input_event_claim_false :
    apply_input_event ['a', '\u00A0', 'b'] 3 ⟨KeyCode.char 'w', true, false⟩ = none := by
  decide

lemma utf8Size_ascii (c : Char) (h : c.toNat < 128) : c.utf8Size = 1 := by
  simp only [Char.utf8Size]
  have h' : c.val.toNat < 128 := h
  have hv : c.val ≤ 0x7F := by
    show c.val.toNat ≤ (0x7F : UInt32).toNat
    simpa using Nat.lt_succ_iff.mp h'
  simp [hv]

lemma byteLen_ascii (l : List Char) (h : ∀ c ∈ l, c.toNat < 128) :
    byteLen l = l.length := by
  induction l with
  | nil => rfl
  | cons c cs ih =>
    have hc := utf8Size_ascii c (h c (by simp))
    have hcs := ih (fun x hx => h x (by simp [hx]))
    simp only [byteLen, List.map_cons, List.sum_cons] at hcs ⊢
    simp [hc, hcs]
    omega

lemma byteTake_ascii (l : List Char) (h : ∀ c ∈ l, c.toNat < 128) :
    ∀ n, n ≤ l.length → byteTake l n = some (l.take n) := by
  induction l with
  | nil =>
    intro n hn
    have : n = 0 := by simpa using hn
    subst this
    simp [byteTake]
  | cons c cs ih =>
    intro n hn
    cases n with
    | zero => simp [byteTake]
    | succ m =>
      have hc := utf8Size_ascii c (h c (by simp))
      have hm : m ≤ cs.length := by simpa using hn
      simp only [byteTake, hc]
      rw [if_pos (by omega)]
      rw [show m + 1 - 1 = m from rfl]
      rw [ih (fun x hx => h x (by simp [hx])) m hm]
      simp

lemma rfindWsByteAux_bound (l : List Char) :
    ∀ off acc, (∀ j, acc = some j → j < off) →
      ∀ i, rfindWsByteAux l off acc = some i → i < off + byteLen l := by
  induction l with
  | nil =>
    intro off acc hacc i hi
    simp only [rfindWsByteAux] at hi
    have := hacc i hi
    simp only [byteLen, List.map_nil, List.sum_nil]
    omega
  | cons c cs ih =>
    intro off acc hacc i hi
    simp only [rfindWsByteAux] at hi
    have hpos := Char.utf8Size_pos c
    have hstep : ∀ j, (if rustIsWhitespace c then some off else acc) = some j →
        j < off + c.utf8Size := by
      intro j hj
      by_cases hw : rustIsWhitespace c
      · rw [if_pos hw] at hj
        have : off = j := by simpa using hj
        omega
      · rw [if_neg hw] at hj
        have := hacc j hj
        omega
    have hb := ih (off + c.utf8Size) _ hstep i hi
    have hblc : byteLen (c :: cs) = c.utf8Size + byteLen cs := by
      simp [byteLen]
    omega

lemma rfindWsByte_lt (l : List Char) (i : Nat) (h : rfindWsByte l = some i) :
    i < byteLen l := by
  have := rfindWsByteAux_bound l 0 none (by simp) i h
  simpa using this

lemma trimEnd_subset (l : List Char) : ∀ c ∈ rustTrimEnd l, c ∈ l := by
  intro c hc
  rw [rustTrimEnd, List.mem_reverse] at hc
  have := (List.dropWhile_sublist rustIsWhitespace).subset hc
  simpa using this

lemma skipWsBack_le (chars : List Char) : ∀ p, skipWsBack chars p ≤ p := by
  intro p
  induction p with
  | zero => simp [skipWsBack]
  | succ q ih =>
    simp only [skipWsBack]
    split
    · omega
    · exact le_refl _

lemma skipWordBack_le (chars : List Char) : ∀ p, skipWordBack chars p ≤ p := by
  intro p
  induction p with
  | zero => simp [skipWordBack]
  | succ q ih =>
    simp only [skipWordBack]
    split
    · exact le_refl _
    · omega

lemma skipWordFwd_le (chars : List Char) :
    ∀ f p, p ≤ chars.length → skipWordFwd chars f p ≤ chars.length := by
  intro f
  induction f with
  | zero => intro p hp; simpa [skipWordFwd] using hp
  | succ g ih =>
    intro p hp
    simp only [skipWordFwd]
    split
    · split
      · exact hp
      · exact ih (p + 1) (by omega)
    · exact hp

lemma skipWsFwd_le (chars : List Char) :
    ∀ f p, p ≤ chars.length → skipWsFwd chars f p ≤ chars.length := by
  intro f
  induction f with
  | zero => intro p hp; simpa [skipWsFwd] using hp
  | succ g ih =>
    intro p hp
    simp only [skipWsFwd]
    split
    · split
      · exact ih (p + 1) (by omega)
      · exact hp
    · exact hp

lemma ctrlWEdit_ascii (buffer : List Char) (cursor : Nat)
    (hascii : ∀ c ∈ buffer, c.toNat < 128) (hcur : cursor ≤ buffer.length) :
    ∃ out, ctrlWEdit buffer cursor = some out ∧ out.2 ≤ out.1.length := by
  have htrimascii : ∀ c ∈ rustTrimEnd (buffer.take cursor), c.toNat < 128 :=
    fun c hc =>
      hascii c (List.take_subset cursor buffer (trimEnd_subset (buffer.take cursor) c hc))
  cases hf : rfindWsByte (rustTrimEnd (buffer.take cursor)) with
  | none =>
    refine ⟨([] ++ buffer.drop cursor, 0), ?_, by simp⟩
    simp [ctrlWEdit, hcur, hf, byteTake]
  | some i =>
    have hi : i < byteLen (rustTrimEnd (buffer.take cursor)) :=
      rfindWsByte_lt _ i hf
    have hlen : byteLen (rustTrimEnd (buffer.take cursor)) =
        (rustTrimEnd (buffer.take cursor)).length :=
      byteLen_ascii _ htrimascii
    have hle : i + 1 ≤ (rustTrimEnd (buffer.take cursor)).length := by omega
    have hbt : byteTake (rustTrimEnd (buffer.take cursor)) (i + 1) =
        some ((rustTrimEnd (buffer.take cursor)).take (i + 1)) :=
      byteTake_ascii _ htrimascii (i + 1) hle
    refine ⟨((rustTrimEnd (buffer.take cursor)).take (i + 1) ++ buffer.drop cursor,
      i + 1), ?_, ?_⟩
    · simp [ctrlWEdit, hcur, hf, hbt]
    · simp only [List.length_append, List.length_take]
      omega

/-- C10 (amended). `apply_input_event` neither panics nor returns a
cursor beyond the buffer, for every key event, provided the buffer is
all ASCII and the cursor is at most the character count. On general
UTF-8 content the claim fails: Ctrl+W byte-slices at `rfind` offset plus
one, which panics inside a multi-byte whitespace character, and the
Ctrl+E/Ctrl+W arms return byte-based cursors that can exceed the
character count. -/
theorem apply_input_event_total_ascii (buffer : List Char) (cursor : Nat)
    (key : KeyEvent)
    (hascii : ∀ c ∈ buffer, c.toNat < 128) (hcur : cursor ≤ buffer.length) :
    ∃ out, apply_input_event buffer cursor key = some out ∧ out.2 ≤ out.1.length := by
  obtain ⟨code, ctrl, alt⟩ := key
  cases code with
  | char c =>
    simp only [apply_input_event]
    by_cases ha : (ctrl && (c == 'a')) = true
    · rw [if_pos ha]
      exact ⟨(buffer, 0), rfl, Nat.zero_le _⟩
    · rw [if_neg ha]
      by_cases he : (ctrl && (c == 'e')) = true
      · rw [if_pos he]
        exact ⟨(buffer, byteLen buffer), rfl, le_of_eq (byteLen_ascii buffer hascii)⟩
      · rw [if_neg he]
        by_cases hu : (ctrl && (c == 'u')) = true
        · rw [if_pos hu, if_pos hcur]
          exact ⟨(buffer.drop cursor, 0), rfl, Nat.zero_le _⟩
        · rw [if_neg hu]
          by_cases hk : (ctrl && (c == 'k')) = true
          · rw [if_pos hk, if_pos hcur]
            refine ⟨(buffer.take cursor, cursor), rfl, ?_⟩
            simp only [List.length_take]
            omega
          · rw [if_neg hk]
            by_cases hw : (ctrl && (c == 'w')) = true
            · rw [if_pos hw]
              exact ctrlWEdit_ascii buffer cursor hascii hcur
            · rw [if_neg hw, if_pos hcur]
              refine ⟨(buffer.insertIdx cursor c, cursor + 1), rfl, ?_⟩
              rw [List.length_insertIdx cursor buffer hcur]
              omega
  | left =>
    simp only [apply_input_event]
    by_cases hm : (alt || ctrl) = true
    · rw [if_pos hm, if_neg (by omega)]
      refine ⟨(buffer, wordLeftPos buffer cursor), rfl, ?_⟩
      calc wordLeftPos buffer cursor
          ≤ skipWsBack buffer cursor := skipWordBack_le buffer _
        _ ≤ cursor := skipWsBack_le buffer cursor
        _ ≤ buffer.length := hcur
    · rw [if_neg hm]
      exact ⟨(buffer, cursor - 1), rfl, le_trans (Nat.sub_le cursor 1) hcur⟩
  | right =>
    simp only [apply_input_event]
    by_cases hm : (alt || ctrl) = true
    · rw [if_pos hm]
      refine ⟨(buffer, wordRightPos buffer cursor), rfl, ?_⟩
      exact skipWsFwd_le buffer buffer.length _
        (skipWordFwd_le buffer buffer.length cursor hcur)
    · rw [if_neg hm]
      exact ⟨(buffer, min (cursor + 1) buffer.length), rfl, min_le_right _ _⟩
  | home => exact ⟨(buffer, 0), rfl, Nat.zero_le _⟩
  | endKey => exact ⟨(buffer, buffer.length), rfl, le_refl _⟩
  | backspace =>
    simp only [apply_input_event]
    by_cases hz : cursor > 0
    · rw [if_pos hz, if_pos (by omega)]
      refine ⟨(buffer.eraseIdx (cursor - 1), cursor - 1), rfl, ?_⟩
      rw [List.length_eraseIdx, if_pos (by omega)]
      omega
    · rw [if_neg hz]
      exact ⟨(buffer, cursor), rfl, hcur⟩
  | delete =>
    simp only [apply_input_event]
    by_cases hd : cursor < buffer.length
    · rw [if_pos hd]
      refine ⟨(buffer.eraseIdx cursor, cursor), rfl, ?_⟩
      rw [List.length_eraseIdx, if_pos hd]
      omega
    · rw [if_neg hd]
      exact ⟨(buffer, cursor), rfl, hcur⟩
  | other => exact ⟨(buffer, cursor), rfl, hcur⟩

/-- Witness for C10: inserting a character into an ASCII buffer
succeeds and keeps the cursor within the buffer. -/
theorem apply_input_event_total_ascii_witness :
    ∃ out, apply_input_event ['a', 'b'] 1 ⟨KeyCode.char 'x', false, false⟩ =
      some out ∧ out.2 ≤ out.1.length :=
  apply_input_event_total_ascii ['a', 'b'] 1 ⟨KeyCode.char 'x', false, false⟩
    (by decide) (by decide)
